import Mathlib

/-!
Verification of the typebox builder-definition generator
(`src/scripts/helpers/typebox.js` and `src/scripts/helpers/utils.js`).

The generator loads TypeScript declaration sources, collects the named method
declarations of the configured builder classes, merges overloads into logical
methods, grows a registry of internal type-name tokens, and patches type
expressions by qualifying registered tokens with the `typebox` namespace.

Strings are modelled as `List Char` (`Str`); the JavaScript string operations
used by the generator (`trim`, `replaceAll`, regex scanning with a `g` flag)
are modelled below.  The scanning functions take an explicit fuel argument so
that they are structurally recursive and evaluate inside the kernel; the
wrappers supply `length + 1` fuel, which is always sufficient because every
step consumes at least one character.
-/

namespace Typebox

abbrev Str := List Char

/- ------------------------------------------------------------------ -/
/-  utils.js helpers                                                   -/
/- ------------------------------------------------------------------ -/

/-- One step of first-occurrence de-duplication: append `a` unless present.
This is the `if (!arr.includes(x)) arr.push(x)` idiom used by
`Method.#step1_addParametersNames` and by the `T`-prefix registry pass, and
the behaviour of inserting into a JavaScript `Set`. -/
def pushUnique {α : Type} [DecidableEq α] (acc : List α) (a : α) : List α :=
  if a ∈ acc then acc else acc ++ [a]

/-- `utils.getUnique`: `Array.from(new Set(arr))` keeps the first occurrence of
each element, in encounter order. -/
def getUnique {α : Type} [DecidableEq α] (l : List α) : List α :=
  l.foldl pushUnique []

/-- Specification-side description of "keep each element's first occurrence":
take the head, then recurse on the tail with all later copies of the head
removed.  Used to state the first-seen-order property of the parameter merge. -/
def firstSeen {α : Type} [DecidableEq α] : List α → List α
  | [] => []
  | a :: l => a :: firstSeen (l.filter (fun b => b ≠ a))
termination_by l => l.length
decreasing_by
  exact Nat.lt_succ_of_le (List.length_filter_le _ _)

/-- Number of occurrences of `a` in `l` (avoids `List.count`'s `BEq` plumbing). -/
def countOcc {α : Type} [DecidableEq α] (a : α) (l : List α) : Nat :=
  (l.filter (fun b => b = a)).length

/-- JavaScript `String.prototype.trim` (`utils.trim`): drop whitespace from
both ends. -/
def trimLeft (s : Str) : Str := s.dropWhile Char.isWhitespace

/-- JavaScript `String.prototype.trim` (`utils.trim`). -/
def trim (s : Str) : Str :=
  ((trimLeft s).reverse.dropWhile Char.isWhitespace).reverse

/-- `utils.addPrefix(p, sep, v)` = `` `${p}${sep}${v}` ``. -/
def addPrefix (p sep v : Str) : Str := p ++ sep ++ v

/-- `Array.prototype.join(sep)`. -/
def joinWith (sep : Str) : List Str → Str
  | [] => []
  | x :: xs => xs.foldl (fun acc y => acc ++ sep ++ y) x

/- ------------------------------------------------------------------ -/
/-  Declaration data model                                             -/
/- ------------------------------------------------------------------ -/

/-- A parameter declaration of a method: the text of its name node when the
parameter has one (`hasProperty("name")` / `name.getText()`). -/
structure ParameterDecl where
  name : Option Str
  deriving DecidableEq

/-- A named TypeScript method declaration (`NamedMethodDeclaration`): the text
of its name and its parameter declarations. -/
structure MethodSig where
  name : Str
  parameters : List ParameterDecl
  deriving DecidableEq

/-- A member of a class body: a method declaration (possibly unnamed — the
generator drops those) or any other member kind. -/
inductive Member where
  | methodDecl (name : Option Str) (parameters : List ParameterDecl)
  | otherMember
  deriving DecidableEq

/-- A class declaration node: `name` is `none` for anonymous classes. -/
structure ClassDecl where
  name : Option Str
  members : List Member
  deriving DecidableEq

/-- A top-level declaration of a source file. -/
inductive Node where
  | classNode (decl : ClassDecl)
  | otherNode
  deriving DecidableEq

/-- A loaded root source file: its top-level declarations and its full text
(`source.getFullText()`). -/
structure SourceFile where
  topLevel : List Node
  fullText : Str
  deriving DecidableEq

/-- `ProgramGenerator.config.builders`: the builder-class allow-list. -/
def configBuilders : List Str :=
  ["JavaScriptTypeBuilder".data, "JsonTypeBuilder".data]

/- ------------------------------------------------------------------ -/
/-  ProgramGenerator: builders and the internal type registry          -/
/- ------------------------------------------------------------------ -/

/-- `ProgramGenerator.internalTypes`: the seeded internal type-name tokens, in
declaration order. -/
def seedInternalTypes : List Str :=
  [ "Static".data, "TSchema".data, "TMappedResult".data, "TEnumKey".data,
    "TEnumValue".data, "TTemplateLiteral".data, "TMappedKey".data,
    "TLiteralValue".data, "TMappedFunction".data, "TMapped".data,
    "TProperties".data, "TIndexPropertyKeys".data, "TTemplateLiteralKind".data ]

/-- `ProgramGenerator.#fillBuilders`: walk the top-level declarations of every
root source, in source order, and keep the named class declarations whose name
is in the builder allow-list. -/
def fillBuilders (sources : List SourceFile) : List ClassDecl :=
  (sources.map fun src =>
    src.topLevel.filterMap fun n =>
      match n with
      | .classNode c =>
        match c.name with
        | some nm => if nm ∈ configBuilders then some c else none
        | none => none
      | .otherNode => none).flatten

/-- The concatenated full text of all root sources, each followed by a newline
(`fullText += source.getFullText() + "\n"`). -/
def fullTextOf (sources : List SourceFile) : Str :=
  sources.foldl (fun acc s => acc ++ s.fullText ++ ['\n']) []

/-- A regex `\w` word character: `[A-Za-z0-9_]`. -/
def isWordChar (c : Char) : Bool :=
  ('a' ≤ c && c ≤ 'z') || ('A' ≤ c && c ≤ 'Z') || ('0' ≤ c && c ≤ '9') || c = '_'

/-- The matches of `/\w+Options /g` over a string.  At each position the
(greedy, leftmost) regex matches exactly when the maximal word-character run
starting there ends in `Options`, is longer than `Options` itself (the `\w+`
part must be non-empty), and is followed by a space; the match consumes the
run and the space.  No match can start strictly inside a run, so scanning
resumes after the run (or after the consumed space). -/
def optionMatchesAux : Nat → Str → List Str
  | 0, _ => []
  | _ + 1, [] => []
  | fuel + 1, c :: rest =>
    if isWordChar c then
      if "Options".data.isSuffixOf ((c :: rest).takeWhile isWordChar)
          ∧ 8 ≤ ((c :: rest).takeWhile isWordChar).length
          ∧ ((c :: rest).dropWhile isWordChar).head? = some ' '
      then ((c :: rest).takeWhile isWordChar ++ [' '])
          :: optionMatchesAux fuel ((c :: rest).dropWhile isWordChar).tail
      else optionMatchesAux fuel ((c :: rest).dropWhile isWordChar)
    else optionMatchesAux fuel rest

/-- `fullText.matchAll(/\w+Options /g)`, taking the matched text of each match
(`pickProperty(0)`). -/
def optionMatches (s : Str) : List Str := optionMatchesAux (s.length + 1) s

/-- `ProgramGenerator.#fillOptionTypeNames`: push the unique, trimmed
`\w+Options ` matches of the concatenated source text onto the registry. -/
def fillOptionTypeNames (internalTypes : List Str) (fullText : Str) : List Str :=
  internalTypes ++ getUnique ((optionMatches fullText).map trim)

/- ------------------------------------------------------------------ -/
/-  Method collection                                                  -/
/- ------------------------------------------------------------------ -/

/-- The flattened named method declarations of the builder classes
(`builders.map(pickProperty("members")).flat().filter(ts.isMethodDeclaration)
.filter(hasProperty("name"))`). -/
def rawMethodsOf (builders : List ClassDecl) : List MethodSig :=
  ((builders.map (·.members)).flatten).filterMap fun m =>
    match m with
    | .methodDecl (some n) ps => some ⟨n, ps⟩
    | .methodDecl none _ => none
    | .otherMember => none

/-- The unique method names, sorted with `utils.compareAlphabetically`
(`localeCompare`, modelled as the lexicographic order on characters). -/
def methodNamesOf (rawMethods : List MethodSig) : List Str :=
  List.insertionSort (· ≤ ·) (getUnique (rawMethods.map (·.name)))

/-- The `T`-prefix registry pass of `ProgramGenerator.#fillMethods`: for each
discovered method name, add `addPrefix("T", "", name)` unless already present. -/
def fillMethodTypeNames (internalTypes : List Str) (names : List Str) : List Str :=
  (names.map (addPrefix "T".data "".data)).foldl pushUnique internalTypes

/-- One step of `utils.groupBy`: append the element to its key's group,
creating the group at the end on first sight (JavaScript objects preserve
key-insertion order). -/
def groupInsert : List (Str × List MethodSig) → Str → MethodSig →
    List (Str × List MethodSig)
  | [], key, m => [(key, [m])]
  | (k, g) :: rest, key, m =>
    if k = key then (k, g ++ [m]) :: rest else (k, g) :: groupInsert rest key m

/-- `utils.groupBy(rawMethods, el => getNameText(el.name))`. -/
def groupByName (rawMethods : List MethodSig) : List (Str × List MethodSig) :=
  rawMethods.foldl (fun acc m => groupInsert acc m.name m) []

/-- `groupings[name]`: property lookup on the grouping object, `none` when the
key is absent (JavaScript `undefined`). -/
def lookupGroup (groups : List (Str × List MethodSig)) (key : Str) :
    Option (List MethodSig) :=
  (groups.find? (fun kv => kv.1 == key)).map (·.2)

/- ------------------------------------------------------------------ -/
/-  The Method model                                                   -/
/- ------------------------------------------------------------------ -/

/-- The synthesized description: `` `Creates an schema for a ${this.name} type.` ``. -/
def methodDescription (name : Str) : Str :=
  "Creates an schema for a ".data ++ name ++ " type.".data

/-- A logical method (`class Method`): name, synthesized description, attached
overload declarations, and the merged parameter-name list. -/
structure Method where
  name : Str
  description : Str
  declarations : List MethodSig
  parametersNames : List Str
  deriving DecidableEq

/-- `Method.init` / the `Method` constructor: empty declaration and parameter
lists, description synthesized from the name. -/
def mkMethod (name : Str) : Method :=
  { name := name, description := methodDescription name
    declarations := [], parametersNames := [] }

/-- The parameter-name texts drawn from a declaration list:
`.map(pickProperty("parameters")).flat().filter(hasProperty("name"))
.map(pickProperty("name"))`, with `getText` giving the stored text. -/
def paramTexts (decls : List MethodSig) : List Str :=
  ((decls.map (·.parameters)).flatten).filterMap (·.name)

/-- The loop body of `Method.#step1_addParametersNames`: push each parameter
name text not already present. -/
def mergedParamNames (decls : List MethodSig) (init : List Str) : List Str :=
  (paramTexts decls).foldl pushUnique init

/-- `Method.#step1_addParametersNames` (via `triggerInitTasks`). -/
def addParametersNames (m : Method) : Method :=
  { m with parametersNames := mergedParamNames m.declarations m.parametersNames }

/-- Attach a method's declaration group and run its init tasks
(`method.addDeclarations(...groupings[method.name]); method.triggerInitTasks()`).
A missing group means spreading `undefined`, which throws: modelled as `none`. -/
def attachGroup (groups : List (Str × List MethodSig)) (m : Method) : Option Method :=
  (lookupGroup groups m.name).map fun g =>
    addParametersNames { m with declarations := m.declarations ++ g }

/-- The `methods.forEach` loop of `#fillMethods`: attach every method's group,
aborting at the first missing group (the thrown `TypeError` propagates). -/
def attachAll (groups : List (Str × List MethodSig)) : List Method → Option (List Method)
  | [] => some []
  | m :: ms =>
    match attachGroup groups m with
    | some m' => (attachAll groups ms).map (m' :: ·)
    | none => none

/-- `ProgramGenerator.#fillMethods`, methods part: create one `Method` per
sorted unique name, then attach each one's declaration group. -/
def buildMethods (rawMethods : List MethodSig) : Option (List Method) :=
  attachAll (groupByName rawMethods) ((methodNamesOf rawMethods).map mkMethod)

/-- The per-method template data produced by `Method.getTemplateData`:
name, JSDoc comment block, and comma-joined parameter list. -/
structure TemplateData where
  name : Str
  comment : Str
  parameters : Str
  deriving DecidableEq

/-- `Method.getTemplateData`: the comment joins `Jsdoc.start` (`/**`), the
rendered description line (`" * " + description`), `Jsdoc.emptyLine` (`" *"`)
and `Jsdoc.end` (`" */"`) with newlines. -/
def getTemplateData (m : Method) : TemplateData :=
  { name := m.name
    comment := joinWith "\n".data
      ["/**".data, " * ".data ++ m.description, " *".data, " */".data]
    parameters := joinWith ", ".data m.parametersNames }

/- ------------------------------------------------------------------ -/
/-  The type patcher                                                   -/
/- ------------------------------------------------------------------ -/

/-- `value.matchAll(internalTypePattern)` where `internalTypePattern` is
`new RegExp(internalTypes.join("|"), "g")`: scan left to right; at each
position the first listed token that occurs there matches and the scan resumes
after it; otherwise the scan advances one character.  All registered tokens
are non-empty (the guard on an empty token only keeps the model total). -/
def regexMatchesAux (toks : List Str) : Nat → Str → List Str
  | 0, _ => []
  | _ + 1, [] => []
  | fuel + 1, c :: rest =>
    match toks.find? (fun t => t.isPrefixOf (c :: rest)) with
    | some t =>
      if t.isEmpty then regexMatchesAux toks fuel rest
      else t :: regexMatchesAux toks fuel ((c :: rest).drop t.length)
    | none => regexMatchesAux toks fuel rest

/-- The matched texts of `value.matchAll(internalTypePattern)`. -/
def internalTypePatternMatches (internalTypes : List Str) (value : Str) : List Str :=
  regexMatchesAux internalTypes (value.length + 1) value

/-- JavaScript `String.prototype.replaceAll` with a non-empty string pattern:
replace the leftmost, non-overlapping occurrences.  (Registered tokens are
never empty; an empty pattern here leaves the string unchanged.) -/
def replaceAllAux (pat rep : Str) : Nat → Str → Str
  | 0, s => s
  | _ + 1, [] => []
  | fuel + 1, c :: rest =>
    if pat ≠ [] ∧ pat.isPrefixOf (c :: rest)
    then rep ++ replaceAllAux pat rep fuel ((c :: rest).drop pat.length)
    else c :: replaceAllAux pat rep fuel rest

/-- JavaScript `String.prototype.replaceAll`. -/
def replaceAll (pat rep s : Str) : Str := replaceAllAux pat rep (s.length + 1) s

/-- The `items.forEach` loop of `ProgramGenerator.patchType`: for each item
that is a registry member, replace all its occurrences by its
`typebox`-qualified form. -/
def patchItems (internalTypes items : List Str) (value : Str) : Str :=
  items.foldl
    (fun patch item =>
      if item ∈ internalTypes
      then replaceAll item (addPrefix "typebox".data ".".data item) patch
      else patch)
    value

/-- `ProgramGenerator.patchType`: collect the unique pattern matches, replace
each, and trim the result. -/
def patchType (internalTypes : List Str) (value : Str) : Str :=
  trim (patchItems internalTypes
    (getUnique (internalTypePatternMatches internalTypes value)) value)

/- ------------------------------------------------------------------ -/
/-  Rendering and the full pipeline                                    -/
/- ------------------------------------------------------------------ -/

/-- Modelled from the spec: the mustache template `templates/builder.mustache`
is not among the repository sources (only read by `ProgramGenerator.config`).
Per the spec, the renderer emits one function stub per logical method from its
template data — the documentation comment, then a function header carrying the
name and the comma-joined parameter list — so an empty method list yields a
module with zero stubs. -/
def renderModule (methods : List Method) : Str :=
  (methods.map fun m =>
    let td := getTemplateData m
    td.comment ++ "\n".data ++ "export function ".data ++ td.name
      ++ "(".data ++ td.parameters ++ ")".data ++ "\n".data).flatten

/-- The state the `ProgramGenerator` constructor builds: the selected builder
classes, the grown internal type registry, and the logical methods (`none`
when the method-attachment loop throws). -/
structure GeneratorState where
  builders : List ClassDecl
  internalTypes : List Str
  methods : Option (List Method)
  deriving DecidableEq

/-- The `ProgramGenerator` constructor:
`#fillBuilders().#fillOptionTypeNames().#fillMethods()`. -/
def runGenerator (sources : List SourceFile) : GeneratorState :=
  let builders := fillBuilders sources
  let afterOptions := fillOptionTypeNames seedInternalTypes (fullTextOf sources)
  let raw := rawMethodsOf builders
  let names := methodNamesOf raw
  { builders := builders
    internalTypes := fillMethodTypeNames afterOptions names
    methods := buildMethods raw }

/-- `ProgramGenerator.writeToFile`: render the template over the per-method
template data and apply the (external, deterministic) formatting pass,
abstracted as an arbitrary function on the rendered string. -/
def writeOutput (format : Str → Str) (sources : List SourceFile) : Option Str :=
  (runGenerator sources).methods.map fun ms => format (renderModule ms)

/-- Registry for the order-dependence counterexample, grown by the Options
pass from source text containing `ABOptions ` and `BOptions `: the seed
followed by the tokens `ABOptions` and `BOptions`. -/
def c2reg : List Str := fillOptionTypeNames seedInternalTypes "ABOptions BOptions ".data

/-- Input string for the order-dependence counterexample. -/
def c2v : Str := "ABOptions BOptions".data

/-- A root source whose only class declaration is not on the builder
allow-list: the pipeline selects zero builder classes from it. -/
def c9sources : List SourceFile :=
  [⟨[Node.otherNode, Node.classNode ⟨some "NotABuilder".data, []⟩], "declare text".data⟩]

/- ------------------------------------------------------------------ -/
/-  Lemmas: first-occurrence de-duplication                            -/
/- ------------------------------------------------------------------ -/

theorem mem_pushUnique {α : Type} [DecidableEq α] {acc : List α} {a b : α} :
    b ∈ pushUnique acc a ↔ b ∈ acc ∨ b = a := by
  unfold pushUnique
  split
  · next h =>
    constructor
    · exact Or.inl
    · rintro (hb | rfl)
      · exact hb
      · exact h
  · simp

theorem pushUnique_eq_of_mem {α : Type} [DecidableEq α] {acc : List α} {a : α}
    (h : a ∈ acc) : pushUnique acc a = acc := by
  simp [pushUnique, h]

theorem nodup_pushUnique {α : Type} [DecidableEq α] {acc : List α} (h : acc.Nodup)
    (a : α) : (pushUnique acc a).Nodup := by
  unfold pushUnique
  split
  · exact h
  · next ha => exact List.Nodup.append h (List.nodup_singleton a) (by simpa using ha)

theorem pushUnique_extend {α : Type} [DecidableEq α] (acc : List α) (a : α) :
    acc <+: pushUnique acc a := by
  unfold pushUnique
  split
  · exact ⟨[], by simp⟩
  · exact ⟨[a], rfl⟩

theorem foldl_pushUnique_mem {α : Type} [DecidableEq α] (l : List α) (acc : List α)
    (b : α) : b ∈ l.foldl pushUnique acc ↔ b ∈ acc ∨ b ∈ l := by
  induction l generalizing acc with
  | nil => simp
  | cons a l ih =>
    rw [List.foldl_cons, ih]
    simp [mem_pushUnique, or_assoc]

theorem foldl_pushUnique_nodup {α : Type} [DecidableEq α] (l : List α)
    {acc : List α} (h : acc.Nodup) : (l.foldl pushUnique acc).Nodup := by
  induction l generalizing acc with
  | nil => exact h
  | cons a l ih => exact ih (nodup_pushUnique h a)

theorem foldl_pushUnique_extend {α : Type} [DecidableEq α] (l : List α)
    (acc : List α) : acc <+: l.foldl pushUnique acc := by
  induction l generalizing acc with
  | nil => exact ⟨[], by simp⟩
  | cons a l ih =>
    obtain ⟨u, hu⟩ := pushUnique_extend acc a
    obtain ⟨t, ht⟩ := ih (pushUnique acc a)
    exact ⟨u ++ t, by rw [List.foldl_cons, ← List.append_assoc, hu, ht]⟩

theorem foldl_pushUnique_fixed {α : Type} [DecidableEq α] :
    ∀ (l acc : List α), (∀ a ∈ l, a ∈ acc) → l.foldl pushUnique acc = acc
  | [], _, _ => rfl
  | a :: l, acc, h => by
    have ha : a ∈ acc := h a (by simp)
    rw [List.foldl_cons, pushUnique_eq_of_mem ha]
    exact foldl_pushUnique_fixed l acc (fun x hx => h x (by simp [hx]))

theorem mem_firstSeen {α : Type} [DecidableEq α] (l : List α) (b : α) :
    b ∈ firstSeen l ↔ b ∈ l := by
  induction l using firstSeen.induct with
  | case1 => simp [firstSeen]
  | case2 a l ih =>
    rw [firstSeen, List.mem_cons, ih, List.mem_filter]
    by_cases hb : b = a <;> simp [hb]

theorem nodup_firstSeen {α : Type} [DecidableEq α] (l : List α) :
    (firstSeen l).Nodup := by
  induction l using firstSeen.induct with
  | case1 => simp [firstSeen]
  | case2 a l ih =>
    rw [firstSeen]
    refine List.nodup_cons.mpr ⟨?_, ih⟩
    rw [mem_firstSeen]
    simp [List.mem_filter]

theorem foldl_pushUnique_firstSeen {α : Type} [DecidableEq α] :
    ∀ (l acc : List α),
      l.foldl pushUnique acc = acc ++ firstSeen (l.filter (fun b => ¬ b ∈ acc))
  | [], acc => by simp [firstSeen]
  | a :: l, acc => by
    rw [List.foldl_cons, foldl_pushUnique_firstSeen l (pushUnique acc a)]
    by_cases ha : a ∈ acc
    · rw [pushUnique_eq_of_mem ha]
      congr 2
      simp [List.filter_cons, ha]
    · have hp : pushUnique acc a = acc ++ [a] := by simp [pushUnique, ha]
      rw [hp, List.append_assoc]
      congr 1
      have hfil : (a :: l).filter (fun b => ¬ b ∈ acc)
          = a :: l.filter (fun b => ¬ b ∈ acc) := by
        simp [List.filter_cons, ha]
      rw [hfil, firstSeen]
      have hsingle : ([a] : List α) ++ firstSeen (l.filter (fun b => ¬ b ∈ acc ++ [a]))
          = a :: firstSeen (l.filter (fun b => ¬ b ∈ acc ++ [a])) := rfl
      rw [hsingle]
      congr 1
      refine congrArg firstSeen ?_
      rw [List.filter_filter]
      apply List.filter_congr
      intro b _
      by_cases h1 : b = a <;> by_cases h2 : b ∈ acc <;> simp [h1, h2]

theorem countOcc_eq_zero {α : Type} [DecidableEq α] {l : List α} {a : α}
    (ha : a ∉ l) : countOcc a l = 0 := by
  unfold countOcc
  rw [List.length_eq_zero]
  rw [List.filter_eq_nil_iff]
  intro b hb
  simp only [decide_eq_true_eq]
  rintro rfl
  exact ha hb

theorem countOcc_eq_one {α : Type} [DecidableEq α] :
    ∀ {l : List α} {a : α}, l.Nodup → a ∈ l → countOcc a l = 1
  | [], _, _, ha => absurd ha (by simp)
  | x :: l, a, hn, ha => by
    rcases List.mem_cons.mp ha with rfl | ha'
    · have hx : a ∉ l := (List.nodup_cons.mp hn).1
      have hz : countOcc a l = 0 := countOcc_eq_zero hx
      unfold countOcc at hz ⊢
      simp [List.filter_cons, hz]
    · have hxa : ¬ (x = a) := by
        rintro rfl
        exact (List.nodup_cons.mp hn).1 ha'
      have := countOcc_eq_one (List.nodup_cons.mp hn).2 ha'
      unfold countOcc at this ⊢
      simpa [List.filter_cons, hxa] using this

/- ------------------------------------------------------------------ -/
/-  C1, C2, C10: the type patcher                                      -/
/- ------------------------------------------------------------------ -/

/-- C1: the claim says `patchType` only rewrites exact whole-token occurrences
and never alters a token occurring inside a longer identifier (its own example:
the `Static` inside `StaticDecode`).  The alternation pattern has no word
boundaries and `replaceAll` is a raw substring replacement, so on the seeded
registry the input `StaticDecode` — which contains the registered token
`Static` only as part of a longer identifier — is rewritten to
`typebox.StaticDecode` instead of being left unaltered. -/
theorem patchType_qualifies_inside_longer_identifier :
    patchType seedInternalTypes "StaticDecode".data = "typebox.StaticDecode".data
      ∧ patchType seedInternalTypes "StaticDecode".data ≠ "StaticDecode".data := by
  constructor
  · decide
  · decide

/-- C2 (counterexample): replacement order across distinct matched tokens does
change the output.  With the registry grown from `ABOptions ` and `BOptions `
(so that the token `BOptions` is a proper suffix of the token `ABOptions`),
the two processing orders of the matched tokens of `"ABOptions BOptions"`
produce different strings, refuting the claim that every permutation of the
distinct matched tokens yields the same result. -/
theorem patchItems_order_dependent_counterexample :
    getUnique (internalTypePatternMatches c2reg c2v)
        = ["ABOptions".data, "BOptions".data]
      ∧ trim (patchItems c2reg ["ABOptions".data, "BOptions".data] c2v)
        ≠ trim (patchItems c2reg ["BOptions".data, "ABOptions".data] c2v) := by
  constructor
  · decide
  · decide

/-- C2 (amended): replacement order across distinct matched tokens can affect
the result when one registered token occurs inside another — here `BOptions`
is a suffix of `ABOptions`, replacing `ABOptions` first leaves a bare
`BOptions` substring inside its qualified form for the second replacement to
hit, while the reverse order destroys the `ABOptions` occurrence first.  The
code itself always processes the matched tokens in first-match order, which is
the first of the two results. -/
theorem patchItems_order_can_change_output :
    trim (patchItems c2reg ["ABOptions".data, "BOptions".data] c2v)
        = "typebox.Atypebox.BOptions typebox.BOptions".data
      ∧ trim (patchItems c2reg ["BOptions".data, "ABOptions".data] c2v)
        = "Atypebox.BOptions typebox.BOptions".data
      ∧ patchType c2reg c2v = "typebox.Atypebox.BOptions typebox.BOptions".data := by
  refine ⟨?_, ?_, ?_⟩
  · decide
  · decide
  · decide

/-- C10: `patchType` is not idempotent.  On the seeded registry, `TSchema`
patches to `typebox.TSchema`, and patching that output again qualifies the
still-matching token once more, giving `typebox.typebox.TSchema`. -/
theorem patchType_not_idempotent :
    patchType seedInternalTypes "TSchema".data = "typebox.TSchema".data
      ∧ patchType seedInternalTypes (patchType seedInternalTypes "TSchema".data)
        = "typebox.typebox.TSchema".data
      ∧ patchType seedInternalTypes (patchType seedInternalTypes "TSchema".data)
        ≠ patchType seedInternalTypes "TSchema".data := by
  refine ⟨?_, ?_, ?_⟩
  · decide
  · decide
  · decide

/- ------------------------------------------------------------------ -/
/-  C3: the synthesized description                                    -/
/- ------------------------------------------------------------------ -/

/-- C3 (counterexample): the constructor synthesizes
`Creates an schema for a Number type.` — with `an` and without backticks —
not the claimed `` Creates a schema for a `Number` type. ``. -/
theorem methodDescription_counterexample :
    (mkMethod "Number".data).description = "Creates an schema for a Number type.".data
      ∧ (mkMethod "Number".data).description
        ≠ "Creates a schema for a `Number` type.".data := by
  constructor
  · decide
  · decide

/-- C3 (amended): for every constructed `Method` with name `n`, the synthesized
one-line description is exactly `Creates an schema for a n type.`, and for
every method the documentation block produced by `getTemplateData` contains
the description verbatim between the fixed comment delimiters. -/
theorem methodDescription_amended (n : Str) (m : Method) :
    (mkMethod n).description = "Creates an schema for a ".data ++ n ++ " type.".data
      ∧ (getTemplateData m).comment
        = "/**\n * ".data ++ m.description ++ "\n *\n */".data := by
  constructor
  · rfl
  · show joinWith "\n".data
        ["/**".data, " * ".data ++ m.description, " *".data, " */".data]
      = "/**\n * ".data ++ m.description ++ "\n *\n */".data
    simp [joinWith, List.append_assoc]

/- ------------------------------------------------------------------ -/
/-  C5: the parameter merge                                            -/
/- ------------------------------------------------------------------ -/

theorem mem_getUnique {α : Type} [DecidableEq α] (l : List α) (b : α) :
    b ∈ getUnique l ↔ b ∈ l := by
  unfold getUnique
  rw [foldl_pushUnique_mem]
  simp

theorem nodup_getUnique {α : Type} [DecidableEq α] (l : List α) :
    (getUnique l).Nodup :=
  foldl_pushUnique_nodup l List.nodup_nil

/-- C5: merging the parameter names of a method's overload declarations keeps
each distinct parameter-name text exactly once, in first-seen order scanning
the declarations in discovery order (`firstSeen` keeps each element's first
occurrence), and re-running the merge on the same declarations over its own
output changes nothing. -/
theorem mergedParamNames_first_seen_unique_idempotent (decls : List MethodSig) :
    mergedParamNames decls [] = firstSeen (paramTexts decls)
      ∧ (∀ n : Str, countOcc n (mergedParamNames decls [])
          = if n ∈ paramTexts decls then 1 else 0)
      ∧ mergedParamNames decls (mergedParamNames decls []) = mergedParamNames decls [] := by
  have h1 : mergedParamNames decls [] = firstSeen (paramTexts decls) := by
    unfold mergedParamNames
    rw [foldl_pushUnique_firstSeen]
    simp
  refine ⟨h1, ?_, ?_⟩
  · intro n
    by_cases hn : n ∈ paramTexts decls
    · rw [if_pos hn, h1]
      exact countOcc_eq_one (nodup_firstSeen _) ((mem_firstSeen _ _).mpr hn)
    · rw [if_neg hn, h1]
      exact countOcc_eq_zero (fun hmem => hn ((mem_firstSeen _ _).mp hmem))
  · unfold mergedParamNames
    apply foldl_pushUnique_fixed
    intro a ha
    rw [foldl_pushUnique_mem]
    exact Or.inr ha

/- ------------------------------------------------------------------ -/
/-  Grouping lemmas, C4 and C6                                         -/
/- ------------------------------------------------------------------ -/

theorem lookupGroup_isSome_iff (groups : List (Str × List MethodSig)) (n : Str) :
    (lookupGroup groups n).isSome = true ↔ n ∈ groups.map (·.1) := by
  induction groups with
  | nil => simp [lookupGroup]
  | cons kv rest ih =>
    by_cases h : kv.1 = n
    · simp [lookupGroup, List.find?_cons, h]
    · have hb : (kv.1 == n) = false := beq_eq_false_iff_ne.mpr h
      simp only [lookupGroup, List.find?_cons, hb, List.map_cons, List.mem_cons]
      rw [show ((rest.find? (fun kv => kv.1 == n)).map (·.2)).isSome = true
            ↔ n ∈ rest.map (·.1) from ih]
      constructor
      · exact Or.inr
      · rintro (rfl | hmem)
        · exact absurd rfl h
        · exact hmem

theorem keys_groupInsert (acc : List (Str × List MethodSig)) (k : Str) (m : MethodSig)
    (n : Str) :
    n ∈ (groupInsert acc k m).map (·.1) ↔ n ∈ acc.map (·.1) ∨ n = k := by
  induction acc with
  | nil => simp [groupInsert]
  | cons kv rest ih =>
    obtain ⟨k', g⟩ := kv
    rw [groupInsert]
    by_cases hk : k' = k
    · rw [if_pos hk]
      subst hk
      simp only [List.map_cons, List.mem_cons]
      tauto
    · rw [if_neg hk]
      simp only [List.map_cons, List.mem_cons, ih]
      tauto

theorem keys_groupByName_aux :
    ∀ (rm : List MethodSig) (acc : List (Str × List MethodSig)) (n : Str),
      n ∈ (rm.foldl (fun acc m => groupInsert acc m.name m) acc).map (·.1)
        ↔ n ∈ acc.map (·.1) ∨ n ∈ rm.map (·.name)
  | [], acc, n => by simp
  | m :: rm, acc, n => by
    rw [List.foldl_cons, keys_groupByName_aux rm _ n, keys_groupInsert]
    simp
    tauto

theorem keys_groupByName (rm : List MethodSig) (n : Str) :
    n ∈ (groupByName rm).map (·.1) ↔ n ∈ rm.map (·.name) := by
  unfold groupByName
  rw [keys_groupByName_aux]
  simp

theorem groupInsert_ne_nil {acc : List (Str × List MethodSig)} {k : Str}
    {m : MethodSig} (h : ∀ kv ∈ acc, kv.2 ≠ []) :
    ∀ kv ∈ groupInsert acc k m, kv.2 ≠ [] := by
  induction acc with
  | nil =>
    intro kv hkv
    simp [groupInsert] at hkv
    subst hkv
    simp
  | cons kv' rest ih =>
    obtain ⟨k', g⟩ := kv'
    intro kv hkv
    rw [groupInsert] at hkv
    by_cases hk : k' = k
    · rw [if_pos hk] at hkv
      rcases List.mem_cons.mp hkv with rfl | hkv'
      · simp
      · exact h kv (List.mem_cons_of_mem _ hkv')
    · rw [if_neg hk] at hkv
      rcases List.mem_cons.mp hkv with rfl | hkv'
      · exact h _ (List.mem_cons_self _ _)
      · exact ih (fun x hx => h x (List.mem_cons_of_mem _ hx)) kv hkv'

theorem groupByName_ne_nil_aux :
    ∀ (rm : List MethodSig) (acc : List (Str × List MethodSig)),
      (∀ kv ∈ acc, kv.2 ≠ []) →
      ∀ kv ∈ rm.foldl (fun acc m => groupInsert acc m.name m) acc, kv.2 ≠ []
  | [], _, h => h
  | m :: rm, acc, h => by
    rw [List.foldl_cons]
    exact groupByName_ne_nil_aux rm _ (groupInsert_ne_nil h)

theorem groupByName_ne_nil (rm : List MethodSig) :
    ∀ kv ∈ groupByName rm, kv.2 ≠ [] :=
  groupByName_ne_nil_aux rm [] (by simp)

theorem mem_methodNamesOf (rm : List MethodSig) (n : Str) :
    n ∈ methodNamesOf rm ↔ n ∈ rm.map (·.name) := by
  unfold methodNamesOf
  rw [(List.perm_insertionSort _ _).mem_iff, mem_getUnique]

theorem methodNamesOf_sorted (rm : List MethodSig) :
    List.Sorted (· ≤ ·) (methodNamesOf rm) :=
  List.sorted_insertionSort _ _

theorem methodNamesOf_nodup (rm : List MethodSig) : (methodNamesOf rm).Nodup :=
  (List.perm_insertionSort _ _).nodup_iff.mpr (nodup_getUnique _)

theorem attachAll_total :
    ∀ (groups : List (Str × List MethodSig)) (ms : List Method),
      (∀ m ∈ ms, (lookupGroup groups m.name).isSome = true) →
      ∃ ms', attachAll groups ms = some ms' ∧ ms'.map (·.name) = ms.map (·.name)
  | _, [], _ => ⟨[], rfl, rfl⟩
  | groups, m :: ms, h => by
    obtain ⟨g, hg⟩ := Option.isSome_iff_exists.mp (h m (List.mem_cons_self _ _))
    obtain ⟨ms', hms', hnames⟩ :=
      attachAll_total groups ms (fun x hx => h x (List.mem_cons_of_mem _ hx))
    refine ⟨addParametersNames { m with declarations := m.declarations ++ g } :: ms',
      ?_, ?_⟩
    · simp [attachAll, attachGroup, hg, hms']
    · simp [hnames, addParametersNames]

theorem buildMethods_eq (rm : List MethodSig) :
    ∃ ms, buildMethods rm = some ms ∧ ms.map (·.name) = methodNamesOf rm := by
  have hall : ∀ m ∈ (methodNamesOf rm).map mkMethod,
      (lookupGroup (groupByName rm) m.name).isSome = true := by
    intro m hm
    obtain ⟨n, hn, rfl⟩ := List.mem_map.mp hm
    rw [lookupGroup_isSome_iff]
    show n ∈ (groupByName rm).map (·.1)
    rw [keys_groupByName]
    exact (mem_methodNamesOf rm n).mp hn
  obtain ⟨ms, hms, hnames⟩ :=
    attachAll_total (groupByName rm) ((methodNamesOf rm).map mkMethod) hall
  refine ⟨ms, hms, ?_⟩
  rw [hnames, List.map_map]
  have hcomp : ((·.name) ∘ mkMethod : Str → Str) = id := by
    funext n
    rfl
  rw [hcomp]
  exact List.map_id _

/-- C4 (counterexample): the method-attachment loop of `#fillMethods` has no
skip-with-warning path.  Run on a grouping with no entry for the unique method
name `foo`, it aborts (the spread of the `undefined` group throws, modelled by
`none`) instead of skipping the method and generating the remaining ones. -/
theorem attachAll_missing_group_aborts :
    attachAll [] [mkMethod "foo".data] = none := by rfl

/-- C4 (amended): the empty-group situation can never arise — every unique
method name's group is non-empty because the names are derived from the same
declaration list — so the run always completes; the code contains no warning
or skip logic, and a missing group would abort the whole run rather than skip
one method. -/
theorem buildMethods_total_groups_nonempty (rm : List MethodSig) :
    (buildMethods rm).isSome = true ∧ ∀ kv ∈ groupByName rm, kv.2 ≠ [] := by
  constructor
  · obtain ⟨ms, hms, _⟩ := buildMethods_eq rm
    rw [hms]
    rfl
  · exact groupByName_ne_nil rm

/-- Witness for the amended C4 statement at one concrete declaration list. -/
theorem buildMethods_total_groups_nonempty_witness :
    (buildMethods [⟨"x".data, []⟩]).isSome = true
      ∧ ("x".data, [(⟨"x".data, []⟩ : MethodSig)]).2 ≠ [] :=
  ⟨(buildMethods_total_groups_nonempty [⟨"x".data, []⟩]).1,
   (buildMethods_total_groups_nonempty [⟨"x".data, []⟩]).2 _ (by decide)⟩

/-- C6: for every builder-class list, the method collection is built: its name
list is exactly the alphabetically sorted unique names, it contains no
duplicate name, it is sorted alphabetically, and as a multiset it equals the
unique names among the named method declarations of the selected builders. -/
theorem buildMethods_names_sorted_unique (builders : List ClassDecl) :
    ∃ ms, buildMethods (rawMethodsOf builders) = some ms
      ∧ ms.map (·.name) = methodNamesOf (rawMethodsOf builders)
      ∧ (ms.map (·.name)).Nodup
      ∧ List.Sorted (· ≤ ·) (ms.map (·.name))
      ∧ (ms.map (·.name)).Perm (getUnique ((rawMethodsOf builders).map (·.name))) := by
  obtain ⟨ms, h1, h2⟩ := buildMethods_eq (rawMethodsOf builders)
  refine ⟨ms, h1, h2, ?_, ?_, ?_⟩
  · rw [h2]
    exact methodNamesOf_nodup _
  · rw [h2]
    exact methodNamesOf_sorted _
  · rw [h2]
    exact List.perm_insertionSort _ _

/- ------------------------------------------------------------------ -/
/-  Registry lemmas and C7                                             -/
/- ------------------------------------------------------------------ -/

theorem word_not_ws {c : Char} (h : isWordChar c = true) : c.isWhitespace = false := by
  cases hw : c.isWhitespace
  · rfl
  · exfalso
    simp [Char.isWhitespace] at hw
    rcases hw with ((h1 | h1) | h1) | h1 <;> subst h1 <;> simp [isWordChar] at h

theorem trim_run_space {r : Str} (hword : ∀ c ∈ r, isWordChar c = true)
    (hne : r ≠ []) : trim (r ++ [' ']) = r := by
  obtain ⟨a, r', rfl⟩ := List.exists_cons_of_ne_nil hne
  have h1 : trimLeft ((a :: r') ++ [' ']) = (a :: r') ++ [' '] := by
    unfold trimLeft
    rw [List.cons_append, List.dropWhile_cons, word_not_ws (hword a (by simp))]
    simp
  unfold trim
  rw [h1, List.reverse_append]
  have hrevne : ((a :: r').reverse) ≠ [] := by simp
  obtain ⟨b, br, hbr⟩ := List.exists_cons_of_ne_nil hrevne
  have hb : b ∈ a :: r' := by
    rw [← List.mem_reverse, hbr]
    simp
  have h2 : List.dropWhile Char.isWhitespace ([' '].reverse ++ (a :: r').reverse)
      = (a :: r').reverse := by
    show List.dropWhile Char.isWhitespace (' ' :: (a :: r').reverse) = (a :: r').reverse
    rw [List.dropWhile_cons]
    simp only [Char.isWhitespace]
    rw [hbr, List.dropWhile_cons, word_not_ws (hword b hb)]
    simp
  rw [h2, List.reverse_reverse]

theorem optionMatchesAux_shape :
    ∀ (fuel : Nat) (s t : Str), t ∈ optionMatchesAux fuel s →
      ∃ run, t = run ++ [' '] ∧ "Options".data.isSuffixOf run = true ∧ run ≠ []
        ∧ ∀ c ∈ run, isWordChar c = true := by
  intro fuel
  induction fuel with
  | zero =>
    intro s t h
    simp [optionMatchesAux] at h
  | succ fuel ih =>
    intro s t h
    match s with
    | [] => simp [optionMatchesAux] at h
    | c :: rest =>
      rw [optionMatchesAux] at h
      split at h
      · split at h
        · next hcond =>
          rcases List.mem_cons.mp h with rfl | h'
          · refine ⟨(c :: rest).takeWhile isWordChar, rfl, hcond.1, ?_, ?_⟩
            · intro hnil
              have h8 := hcond.2.1
              rw [hnil] at h8
              simp at h8
            · intro x hx
              exact List.mem_takeWhile_imp hx
          · exact ih _ _ h'
        · exact ih _ _ h
      · exact ih _ _ h

theorem optionTokens_suffix (fullText : Str) :
    ∀ t ∈ (optionMatches fullText).map trim, "Options".data.isSuffixOf t = true := by
  intro t ht
  obtain ⟨raw, hraw, rfl⟩ := List.mem_map.mp ht
  obtain ⟨run, rfl, hsuf, hne, hword⟩ := optionMatchesAux_shape _ _ _ hraw
  rw [trim_run_space hword hne]
  exact hsuf

theorem seed_nodup : seedInternalTypes.Nodup := by decide

theorem seed_no_options_suffix :
    ∀ t ∈ seedInternalTypes, "Options".data.isSuffixOf t = false := by decide

theorem fillOptionTypeNames_nodup (fullText : Str) :
    (fillOptionTypeNames seedInternalTypes fullText).Nodup := by
  unfold fillOptionTypeNames
  refine List.Nodup.append seed_nodup (nodup_getUnique _) ?_
  intro t ht hmem
  have h1 := seed_no_options_suffix t ht
  have h2 : "Options".data.isSuffixOf t = true :=
    optionTokens_suffix fullText t ((mem_getUnique _ _).mp hmem)
  rw [h1] at h2
  cases h2

/-- C7: the internal type registry grows monotonically during construction —
the seed is a prefix of the state after the Options pass, which is a prefix of
the state after the `T`-prefix pass (so no token is ever removed and every
seeded token stays) — the final registry holds no duplicate token, and the
guarded add of an already-present token leaves the registry unchanged. -/
theorem internalTypes_registry_monotone_nodup (fullText : Str) (names : List Str) :
    seedInternalTypes <+: fillOptionTypeNames seedInternalTypes fullText
      ∧ fillOptionTypeNames seedInternalTypes fullText
          <+: fillMethodTypeNames (fillOptionTypeNames seedInternalTypes fullText) names
      ∧ (fillMethodTypeNames (fillOptionTypeNames seedInternalTypes fullText) names).Nodup
      ∧ (∀ (l : List Str) (v : Str), v ∈ l → pushUnique l v = l) := by
  refine ⟨⟨getUnique ((optionMatches fullText).map trim), rfl⟩, ?_, ?_, ?_⟩
  · exact foldl_pushUnique_extend _ _
  · exact foldl_pushUnique_nodup _ (fillOptionTypeNames_nodup fullText)
  · intro l v hv
    exact pushUnique_eq_of_mem hv

/-- Witness for C7 at a concrete source text and method-name list, with the
already-present guard exercised on a seeded token. -/
theorem internalTypes_registry_monotone_nodup_witness :
    seedInternalTypes <+: fillOptionTypeNames seedInternalTypes "FooOptions ".data
      ∧ pushUnique seedInternalTypes "Static".data = seedInternalTypes :=
  ⟨(internalTypes_registry_monotone_nodup "FooOptions ".data ["Any".data]).1,
   (internalTypes_registry_monotone_nodup "FooOptions ".data ["Any".data]).2.2.2
     seedInternalTypes "Static".data (by decide)⟩

/- ------------------------------------------------------------------ -/
/-  C8 and C9: the full pipeline                                       -/
/- ------------------------------------------------------------------ -/

/-- C8: the modelled pipeline is a pure function of the loaded declaration
sources — running it twice on the same input yields identical builder,
registry and method collections and an identical rendered module string for
any fixed formatting pass — and the method order in any built collection is
alphabetical, the only sort applied. -/
theorem pipeline_deterministic (format : Str → Str) (s₁ s₂ : List SourceFile)
    (h : s₁ = s₂) :
    runGenerator s₁ = runGenerator s₂
      ∧ writeOutput format s₁ = writeOutput format s₂
      ∧ ∀ ms, buildMethods (rawMethodsOf (fillBuilders s₁)) = some ms →
          List.Sorted (· ≤ ·) (ms.map (·.name)) := by
  subst h
  refine ⟨rfl, rfl, ?_⟩
  intro ms hms
  obtain ⟨ms', h1, h2⟩ := buildMethods_eq (rawMethodsOf (fillBuilders s₁))
  have : ms = ms' := Option.some.inj ((hms ▸ h1 : some ms = some ms'))
  subst this
  rw [h2]
  exact methodNamesOf_sorted _

/-- Witness for C8 at the empty source list. -/
theorem pipeline_deterministic_witness :
    writeOutput (fun s => s) [] = writeOutput (fun s => s) []
      ∧ List.Sorted (· ≤ ·) ((([] : List Method)).map (·.name)) :=
  ⟨(pipeline_deterministic (fun s => s) [] [] rfl).2.1,
   (pipeline_deterministic (fun s => s) [] [] rfl).2.2 [] (by decide)⟩

/-- C9: when zero class declarations match the builder allow-list,
construction still completes — the builder collection is empty, the method
collection is built and empty, and rendering produces the module with zero
method stubs instead of failing. -/
theorem zero_builders_empty_module (format : Str → Str) (sources : List SourceFile)
    (h : fillBuilders sources = []) :
    (runGenerator sources).builders = []
      ∧ (runGenerator sources).methods = some []
      ∧ writeOutput format sources = some (format (renderModule [])) := by
  have hmethods : (runGenerator sources).methods = some [] := by
    show buildMethods (rawMethodsOf (fillBuilders sources)) = some []
    rw [h]
    rfl
  refine ⟨h, hmethods, ?_⟩
  unfold writeOutput
  rw [hmethods]
  rfl

/-- Witness for C9 at a concrete root source whose only class is not a
configured builder. -/
theorem zero_builders_empty_module_witness :
    (runGenerator c9sources).methods = some []
      ∧ writeOutput (fun s => s) c9sources = some (renderModule []) :=
  ⟨(zero_builders_empty_module (fun s => s) c9sources (by decide)).2.1,
   (zero_builders_empty_module (fun s => s) c9sources (by decide)).2.2⟩

end Typebox
